import Mathlib

/-!
Verification of the Notion-to-GitHub backup scripts.

Strings from the Python sources are modelled as `List Char`; `os.path.splitext`,
`re`-pattern matching for the concrete patterns used, `str.strip`, `str.replace`
and Python string comparison are embedded as executable Lean functions below.
The stateful loops (the export poll loop of `NotionExporter._poll_export_status`,
the rename pass of `FileProcessor.rename_files_and_folders`, and the sync cycle
`run_sync`) are embedded as pure functions over explicit environments describing
the outcomes of the external calls they make.
-/

namespace NotionBackup

/-- Characters treated as whitespace by Python's `\s` regex class and by
`str.strip()`.  In Python 3 both are Unicode-aware and use the same predicate
(`str.isspace`); the full set of code points is U+0009-U+000D, U+001C-U+0020,
U+0085 (NEL), U+00A0 (NBSP), U+1680, U+2000-U+200A, U+2028, U+2029, U+202F,
U+205F and U+3000. -/
def pySpace (c : Char) : Bool :=
  let n := c.toNat
  (9 ≤ n && n ≤ 13) || (28 ≤ n && n ≤ 32) || n = 133 || n = 160 ||
    n = 5760 || (8192 ≤ n && n ≤ 8202) || n = 8232 || n = 8233 ||
    n = 8239 || n = 8287 || n = 12288

/-- The character class `[a-f0-9]` of `FileProcessor.UUID_PATTERN`. -/
def isHexDigit (c : Char) : Bool :=
  ('a' ≤ c && c ≤ 'f') || ('0' ≤ c && c ≤ '9')

/-- Helper for `splitext`: on a reversed name, split off the (reversed) extension,
everything up to and including the first '.' seen from the right.  Returns `none`
when the name has no dot. -/
def revSplitDot : List Char → Option (List Char × List Char)
  | [] => none
  | c :: rest =>
    if c = '.' then some ([c], rest)
    else
      match revSplitDot rest with
      | some (e, s) => some (c :: e, s)
      | none => none

/-- `os.path.splitext` restricted to bare file names (no path separators, which is
how both scripts use it): split at the last dot, unless every character before
that dot is itself a dot (leading dots do not start an extension). -/
def splitext (p : List Char) : List Char × List Char :=
  match revSplitDot p.reverse with
  | some (re, rs) =>
    let stem := rs.reverse
    if stem.any (fun c => c ≠ '.') then (stem, re.reverse) else (p, [])
  | none => (p, [])

/-- Consume exactly `n` characters matching `[a-f0-9]` from the front of a
(reversed) string, returning the remainder. -/
def takeHex : Nat → List Char → Option (List Char)
  | 0, r => some r
  | _ + 1, [] => none
  | n + 1, c :: rest => if isHexDigit c then takeHex n rest else none

/-- Consume a single hyphen. -/
def takeDash : List Char → Option (List Char)
  | [] => none
  | c :: rest => if c = '-' then some rest else none

/-- Consume hyphen-separated groups of hex digits with the given group lengths. -/
def takeGroups : List Nat → List Char → Option (List Char)
  | [], r => some r
  | n :: ns, r =>
    match takeHex n r with
    | none => none
    | some r1 =>
      match ns with
      | [] => some r1
      | _ :: _ =>
        match takeDash r1 with
        | none => none
        | some r2 => takeGroups ns r2

/-- The hyphen-grouped 8-4-4-4-12 identifier form, read from the right. -/
def uuidRev (r : List Char) : Option (List Char) :=
  takeGroups [12, 4, 4, 4, 8] r

/-- The `\s+` that separates the identifier token from the semantic name:
requires at least one whitespace character and consumes the maximal run. -/
def dropSpacesRev : List Char → Option (List Char)
  | [] => none
  | c :: rest => if pySpace c then some (rest.dropWhile pySpace) else none

/-- The anchored match-and-remove of `UUID_PATTERN.sub('', ...)`, operating on
the reversed string: a 32-hex-character token, or an 8-4-4-4-12 hyphen-grouped
token, preceded by a maximal nonempty whitespace run, is removed from the
anchor position; the two branches can never both match (the hyphen positions of
the second form are not hex digits). -/
def stripUUIDRev (r : List Char) : List Char :=
  match (takeHex 32 r).bind dropSpacesRev with
  | some r2 => r2
  | none =>
    match (uuidRev r).bind dropSpacesRev with
    | some r2 => r2
    | none => r

/-- `FileProcessor.UUID_PATTERN.sub('', name)`: the pattern
`\s+[a-f0-9]{32}$|\s+[a-f0-9]{8}-[a-f0-9]{4}-[a-f0-9]{4}-[a-f0-9]{4}-[a-f0-9]{12}$`
is anchored by `$`, which in Python matches at the end of the string and also
just before a newline that ends the string — so a single trailing newline is
skipped before anchoring, and at most one match exists (the token forms cannot
end in a newline). -/
def stripUUID (name : List Char) : List Char :=
  match name.reverse with
  | [] => name
  | c :: rest =>
    if c = '\n' then (stripUUIDRev rest).reverse ++ ['\n']
    else (stripUUIDRev (c :: rest)).reverse

/-- `FileProcessor.clean_filename`: split off the extension, strip the trailing
identifier token from the stem, reattach the extension. -/
def clean_filename (filename : List Char) : List Char :=
  let p := splitext filename
  stripUUID p.1 ++ p.2

/-- `str.strip()`: remove leading and trailing whitespace. -/
def pyStrip (s : List Char) : List Char :=
  ((s.dropWhile pySpace).reverse.dropWhile pySpace).reverse

/-- Python string `<`: lexicographic comparison by code point, with a proper
prefix comparing smaller. -/
def pyStrLt : List Char → List Char → Bool
  | [], [] => false
  | [], _ :: _ => true
  | _ :: _, [] => false
  | a :: as, b :: bs => if a < b then true else if b < a then false else pyStrLt as bs

/-- The change test of `run_sync`: `last_edited_time > last_sync_time`, Python
string comparison.  (The spec calls this operation `HasChanged`.) -/
def hasChanged (remoteVersion watermark : List Char) : Bool :=
  pyStrLt watermark remoteVersion

/-- The default watermark returned by `get_last_sync` for a missing or blank file. -/
def defaultWatermark : List Char := "2000-01-01T00:00:00.000Z".toList

/-- `get_last_sync`: the watermark file's state is `none` (file absent) or
`some content`.  Absent file, or content whose `strip()` is empty, yields the
fixed default; otherwise the stripped content. -/
def get_last_sync (fs : Option (List Char)) : List Char :=
  match fs with
  | none => defaultWatermark
  | some content =>
    let c := pyStrip content
    if c = [] then defaultWatermark else c

/-- `save_sync_time`: opens the watermark file in write mode and writes the
timestamp; the final filesystem state holds exactly the new timestamp. -/
def save_sync_time (timestamp : List Char) (_fs : Option (List Char)) : Option (List Char) :=
  some timestamp

/-- The filesystem states observable while `save_sync_time` runs: the code does
`open(SYNC_FILE, "w")` (which truncates the file in place) and then a single
`write(timestamp)`; there is no temporary path and no rename, so between the
truncation and the completed write the file is empty. -/
def save_sync_time_states (timestamp : List Char) (fs : Option (List Char)) :
    List (Option (List Char)) :=
  [fs, some [], some timestamp]

/-- What one iteration of the poll loop in `NotionExporter._poll_export_status`
observes: a `requests` exception, an empty `results` list, a task whose state is
neither `"complete"` nor `"failure"`, a `"complete"` task with its optional
`exportURL` field, or a `"failure"` task with its error detail. -/
inductive PollReply where
  | netError : PollReply
  | noResults : PollReply
  | inProgress : PollReply
  | completeWith : Option (List Char) → PollReply
  | failedWith : List Char → PollReply
deriving DecidableEq

/-- The replies that make the loop sleep and go on to the next attempt. -/
def isTransient : PollReply → Bool
  | .netError => true
  | .noResults => true
  | .inProgress => true
  | .completeWith _ => false
  | .failedWith _ => false

/-- The body of `_poll_export_status`'s `for attempt in range(max_attempts)`
loop, from attempt index `i` with `fuel` attempts left.  `env` gives the reply
each attempt observes.  Returns the function's return value (the export URL, or
`None` for every failure) paired with the number of poll attempts performed.
A `"complete"` reply returns the URL only when it is present and non-empty
(Python truthiness of `export_url`); otherwise it returns `None` at once, as
does `"failure"`; exceptions, empty results and in-progress states each consume
one attempt and continue; running out of attempts returns `None`. -/
def pollFrom (env : Nat → PollReply) : Nat → Nat → Option (List Char) × Nat
  | _, 0 => (none, 0)
  | i, fuel + 1 =>
    match env i with
    | .netError =>
      let r := pollFrom env (i + 1) fuel
      (r.1, r.2 + 1)
    | .noResults =>
      let r := pollFrom env (i + 1) fuel
      (r.1, r.2 + 1)
    | .inProgress =>
      let r := pollFrom env (i + 1) fuel
      (r.1, r.2 + 1)
    | .completeWith u =>
      match u with
      | some url => if url = [] then (none, 1) else (some url, 1)
      | none => (none, 1)
    | .failedWith _ => (none, 1)

/-- `NotionExporter._poll_export_status(task_id, max_attempts)` under reply
environment `env`. -/
def poll_export_status (env : Nat → PollReply) (maxAttempts : Nat) :
    Option (List Char) × Nat :=
  pollFrom env 0 maxAttempts

/-- Decimal digit characters, as produced by Python string formatting. -/
def decDigit (d : Nat) : Char :=
  match d with
  | 0 => '0' | 1 => '1' | 2 => '2' | 3 => '3' | 4 => '4'
  | 5 => '5' | 6 => '6' | 7 => '7' | 8 => '8' | _ => '9'

/-- Decimal representation of a natural number, as in `f"{counter}"`. -/
def natToStr (n : Nat) : List Char :=
  if n = 0 then ['0'] else ((Nat.digits 10 n).map decDigit).reverse

/-- The candidate name `f"{name}_{counter}{ext}"` built by the conflict loop of
`rename_files_and_folders`, where `(name, ext) = os.path.splitext(new_name)`. -/
def suffixed (base ext : List Char) (counter : Nat) : List Char :=
  base ++ '_' :: natToStr counter ++ ext

/-- The `while new_path.exists()` conflict loop: starting from `counter`, bump
the counter until the candidate name is not occupied.  `fuel` bounds the search
(the loop in the source is unbounded but the directory is finite; fuel
`occ.length + 1` always suffices, see `findFreeFrom_not_mem`). -/
def findFreeFrom (base ext : List Char) (occ : List (List Char)) :
    Nat → Nat → List Char
  | 0, k => suffixed base ext k
  | fuel + 1, k =>
    if suffixed base ext k ∈ occ then findFreeFrom base ext occ fuel (k + 1)
    else suffixed base ext k

/-- Conflict resolution for one cleaned name against the names currently in its
directory: the cleaned name itself if free, else the first free
`{name}_{counter}{ext}` with `counter` counting up from 1. -/
def resolveCollision (cleanName : List Char) (occ : List (List Char)) : List Char :=
  if cleanName ∈ occ then
    let p := splitext cleanName
    findFreeFrom p.1 p.2 occ (occ.length + 1) 1
  else cleanName

/-- One iteration of the rename loop of `rename_files_and_folders`, restricted
to the siblings of a single directory (`dir` is the current set of names in that
directory): skip the entry if it no longer exists, skip it if cleaning does not
change it, otherwise rename it to the collision-resolved cleaned name. -/
def renameStep (dir : List (List Char)) (o : List Char) : List (List Char) :=
  if o ∈ dir then
    let n := clean_filename o
    if n = o then dir
    else resolveCollision n dir :: dir.erase o
  else dir

/-- The rename pass of `rename_files_and_folders` over the entries of one
directory, processed in the fixed order `order` (the pre-computed, sorted
listing in the source); `dir` is the directory's initial set of names. -/
def rename_files_and_folders (order : List (List Char)) (dir : List (List Char)) :
    List (List Char) :=
  order.foldl renameStep dir

/-- `name.replace(' ', '%20')`, the URL encoding applied in `fix_markdown_links`. -/
def encodeSpaces : List Char → List Char
  | [] => []
  | c :: rest => (if c = ' ' then ['%', '2', '0'] else [c]) ++ encodeSpaces rest

/-- Python `str.replace(old, new)` scanning from position `fuel` chars from the
end: replace each leftmost, non-overlapping occurrence of `pat` and continue
after the replacement.  `fuel = s.length` makes this total; the guard on an
empty pattern never fires at the call sites (file names are nonempty). -/
def replaceGo (pat rep : List Char) : Nat → List Char → List Char
  | _, [] => []
  | 0, s => s
  | fuel + 1, c :: rest =>
    if pat.isPrefixOf (c :: rest) && !pat.isEmpty then
      rep ++ replaceGo pat rep fuel ((c :: rest).drop pat.length)
    else c :: replaceGo pat rep fuel rest

/-- Python `s.replace(pat, rep)`. -/
def replaceAll (s pat rep : List Char) : List Char :=
  replaceGo pat rep s.length s

/-- One rename pair applied to a document's content, as in `fix_markdown_links`:
first the space-encoded forms of the old and new leaf names, then the literal
forms. -/
def applyPair (content : List Char) (p : List Char × List Char) : List Char :=
  replaceAll (replaceAll content (encodeSpaces p.1) (encodeSpaces p.2)) p.1 p.2

/-- `fix_markdown_links` on one document: fold the recorded rename pairs, in
recording order, over the content. -/
def fix_markdown_links (content : List Char) (renames : List (List Char × List Char)) :
    List Char :=
  renames.foldl applyPair content

/-- The outcome of one `run_sync` cycle, matching the distinct exit points of
the function in `sync.py`. -/
inductive SyncOutcome where
  | apiError : SyncOutcome
  | notChanged : SyncOutcome
  | exportRaised : SyncOutcome
  | postRaised : SyncOutcome
  | noContentChanges : SyncOutcome
  | commitFailed : SyncOutcome
  | pushFailed : SyncOutcome
  | pushed : SyncOutcome
deriving DecidableEq

/-- The outcomes of the external calls one `run_sync` cycle makes.
`pageResult` is `none` when `notion.pages.retrieve` raises (caught in the
source), else the page's `last_edited_time`.  `exportOk` / `unzipOk` / `postOk`
say whether `MarkdownExporter(...).export()`, the `zipfile` extraction, and
`post_process_files` run without raising.  `gitStatus` is the output of
`git status --porcelain`; `commitOk` and `pushOk` are the exit statuses of
`git commit` and `git push`. -/
structure SyncEnv where
  pageResult : Option (List Char)
  exportOk : Bool
  unzipOk : Bool
  postOk : Bool
  gitStatus : List Char
  commitOk : Bool
  pushOk : Bool

/-- One cycle of `run_sync` over the watermark-file state `fs`, returning the
final watermark-file state and the cycle's outcome.  Faithful to the source:
a retrieve error returns with nothing written; no change detected returns; an
exception from the exporter or from post-processing propagates out of
`run_sync` with nothing written; an extraction error is caught and logged and
the cycle continues (so `unzipOk` does not affect control flow); an empty
`git status` saves the watermark and returns; commit or push failure returns
with nothing written; a successful push saves the watermark. -/
def run_sync (env : SyncEnv) (fs : Option (List Char)) :
    Option (List Char) × SyncOutcome :=
  match env.pageResult with
  | none => (fs, .apiError)
  | some t =>
    if hasChanged t (get_last_sync fs) then
      if env.exportOk then
        if env.postOk then
          if env.gitStatus = [] then (save_sync_time t fs, .noContentChanges)
          else if env.commitOk then
            if env.pushOk then (save_sync_time t fs, .pushed)
            else (fs, .pushFailed)
          else (fs, .commitFailed)
        else (fs, .postRaised)
      else (fs, .exportRaised)
    else (fs, .notChanged)

theorem takeHex_skip (t z : List Char) (m : Nat) (h : t.all isHexDigit = true) :
    takeHex (t.length + m) (t ++ z) = takeHex m z := by
  induction t with
  | nil => simp
  | cons c t ih =>
    simp only [List.all_cons, Bool.and_eq_true] at h
    have harith : (c :: t).length + m = (t.length + m) + 1 := by
      simp [List.length_cons]; omega
    rw [harith]
    simpa [takeHex, h.1] using ih h.2

theorem takeHex_all_append (t r : List Char) (hlen : t.length = 32)
    (h : t.all isHexDigit = true) : takeHex 32 (t ++ r) = some r := by
  have := takeHex_skip t r 0 h
  rw [hlen] at this
  simpa [takeHex] using this

theorem takeHex_append (n : Nat) (t u r : List Char) (h : takeHex n t = some u) :
    takeHex n (t ++ r) = some (u ++ r) := by
  induction n generalizing t with
  | zero =>
    simp only [takeHex, Option.some.injEq] at h
    simp [takeHex, h]
  | succ n ih =>
    cases t with
    | nil => simp [takeHex] at h
    | cons c t =>
      by_cases hc : isHexDigit c = true
      · simp only [takeHex, hc, if_true] at h
        simpa [takeHex, hc] using ih t h
      · simp [takeHex, hc] at h

theorem takeDash_append (t u r : List Char) (h : takeDash t = some u) :
    takeDash (t ++ r) = some (u ++ r) := by
  cases t with
  | nil => simp [takeDash] at h
  | cons c t =>
    by_cases hc : c = '-'
    · simp only [takeDash, hc, if_true] at h
      cases h
      simp [takeDash, hc]
    · simp [takeDash, hc] at h

theorem takeGroups_append (ls : List Nat) (t u r : List Char)
    (h : takeGroups ls t = some u) : takeGroups ls (t ++ r) = some (u ++ r) := by
  induction ls generalizing t with
  | nil =>
    simp only [takeGroups, Option.some.injEq] at h
    simp [takeGroups, h]
  | cons n ns ih =>
    cases hh : takeHex n t with
    | none => simp [takeGroups, hh] at h
    | some r1 =>
      have hh2 := takeHex_append n t r1 r hh
      cases ns with
      | nil =>
        simp only [takeGroups, hh, Option.some.injEq] at h
        simp [takeGroups, hh2, h]
      | cons m ms =>
        cases hd : takeDash r1 with
        | none => simp [takeGroups, hh, hd] at h
        | some r2 =>
          have hd2 := takeDash_append r1 r2 r hd
          have hbody : takeGroups (n :: m :: ms) t = takeGroups (m :: ms) r2 := by
            simp [takeGroups, hh, hd]
          rw [hbody] at h
          have hgoal : takeGroups (n :: m :: ms) (t ++ r) = takeGroups (m :: ms) (r2 ++ r) := by
            simp [takeGroups, hh2, hd2]
          rw [hgoal]
          exact ih r2 h

theorem takeHex_inversion (n : Nat) (r u : List Char) (h : takeHex n r = some u) :
    ∃ t, r = t ++ u ∧ t.length = n ∧ t.all isHexDigit = true := by
  induction n generalizing r with
  | zero =>
    simp only [takeHex, Option.some.injEq] at h
    exact ⟨[], by simp [h]⟩
  | succ n ih =>
    cases r with
    | nil => simp [takeHex] at h
    | cons c r =>
      by_cases hc : isHexDigit c = true
      · simp only [takeHex, hc, if_true] at h
        obtain ⟨t, ht, hlen, hall⟩ := ih r h
        exact ⟨c :: t, by simp [ht], by simp [hlen], by simp [List.all_cons, hc, hall]⟩
      · simp [takeHex, hc] at h

theorem dropSpacesRev_append (wsr b : List Char) (hne : wsr ≠ [])
    (hall : wsr.all pySpace = true) (hb : pySpace (b.headD 'x') = false) :
    dropSpacesRev (wsr ++ b) = some b := by
  cases wsr with
  | nil => exact absurd rfl hne
  | cons w ws2 =>
    simp only [List.all_cons, Bool.and_eq_true] at hall
    have h1 : List.dropWhile pySpace ws2 = [] := by
      rw [List.dropWhile_eq_nil_iff]
      intro x hx
      exact List.all_eq_true.mp hall.2 x hx
    have h2 : List.dropWhile pySpace b = b := by
      cases b with
      | nil => rfl
      | cons c cs =>
        simp only [List.headD_cons] at hb
        simp [List.dropWhile_cons, hb]
    simp [dropSpacesRev, hall.1, List.dropWhile_append, h1, h2]

/-- The central fact about the identifier-stripping substitution: a stem made of
a semantic name (not itself ending in whitespace), a nonempty whitespace run,
and a token of either recognized hex form, is stripped back to the semantic
name. -/
theorem stripUUIDRev_strips (sem ws tok : List Char)
    (hws : ws ≠ []) (hwsall : ws.all pySpace = true)
    (hsem : pySpace (sem.reverse.headD 'x') = false)
    (htok : (tok.length = 32 ∧ tok.all isHexDigit = true) ∨ uuidRev tok.reverse = some []) :
    stripUUIDRev (tok.reverse ++ (ws.reverse ++ sem.reverse)) = sem.reverse := by
  have hwsr : ws.reverse ≠ [] := by simpa using hws
  have hwsrall : ws.reverse.all pySpace = true := by simpa [List.all_reverse] using hwsall
  have hdrop : dropSpacesRev (ws.reverse ++ sem.reverse) = some sem.reverse :=
    dropSpacesRev_append _ _ hwsr hwsrall hsem
  rcases htok with ⟨hlen, hhex⟩ | huuid
  · have h32 : takeHex 32 (tok.reverse ++ (ws.reverse ++ sem.reverse)) =
        some (ws.reverse ++ sem.reverse) :=
      takeHex_all_append tok.reverse _ (by simpa using hlen)
        (by simpa [List.all_reverse] using hhex)
    simp [stripUUIDRev, h32, hdrop]
  · have h32 : takeHex 32 (tok.reverse ++ (ws.reverse ++ sem.reverse)) = none := by
      cases hh : takeHex 12 tok.reverse with
      | none => simp [uuidRev, takeGroups, hh] at huuid
      | some r1 =>
        cases hd : takeDash r1 with
        | none => simp [uuidRev, takeGroups, hh, hd] at huuid
        | some r2 =>
          obtain ⟨t12, ht, hlen12, hall12⟩ := takeHex_inversion 12 tok.reverse r1 hh
          have hr1 : r1 = '-' :: r2 := by
            cases r1 with
            | nil => simp [takeDash] at hd
            | cons a as =>
              by_cases ha : a = '-'
              · simp only [takeDash, ha, if_true, Option.some.injEq] at hd
                rw [ha, hd]
              · simp [takeDash, ha] at hd
          rw [ht, hr1]
          have : takeHex 32 ((t12 ++ '-' :: r2) ++ (ws.reverse ++ sem.reverse)) =
              takeHex 20 ('-' :: (r2 ++ (ws.reverse ++ sem.reverse))) := by
            have h32eq : (32 : Nat) = t12.length + 20 := by rw [hlen12]
            rw [h32eq, List.append_assoc, List.cons_append]
            exact takeHex_skip t12 _ 20 hall12
          rw [this]
          simp [takeHex, isHexDigit]
    have huu : uuidRev (tok.reverse ++ (ws.reverse ++ sem.reverse)) =
        some (ws.reverse ++ sem.reverse) := by
      simpa using takeGroups_append [12, 4, 4, 4, 8] tok.reverse [] _ huuid
    simp [stripUUIDRev, h32, huu, hdrop]

theorem tok_reverse_head_hex (tok : List Char)
    (htok : (tok.length = 32 ∧ tok.all isHexDigit = true) ∨ uuidRev tok.reverse = some []) :
    ∃ c t2, tok.reverse = c :: t2 ∧ isHexDigit c = true := by
  rcases htok with ⟨hlen, hhex⟩ | huuid
  · cases htr : tok.reverse with
    | nil =>
      exfalso
      have : tok = [] := by simpa using htr
      rw [this] at hlen
      simp at hlen
    | cons c t2 =>
      refine ⟨c, t2, rfl, ?_⟩
      have hmem : c ∈ tok.reverse := by
        rw [htr]
        exact List.mem_cons_self c t2
      have hall : tok.reverse.all isHexDigit = true := by
        simpa [List.all_reverse] using hhex
      exact List.all_eq_true.mp hall c hmem
  · cases hh : takeHex 12 tok.reverse with
    | none => simp [uuidRev, takeGroups, hh] at huuid
    | some r1 =>
      obtain ⟨t12, ht, hlen12, hall12⟩ := takeHex_inversion 12 tok.reverse r1 hh
      cases t12 with
      | nil => simp at hlen12
      | cons c t2 =>
        simp only [List.all_cons, Bool.and_eq_true] at hall12
        exact ⟨c, t2 ++ r1, by simp [ht], hall12.1⟩

theorem stripUUID_skip_trailing (name : List Char) (c : Char) (rest : List Char)
    (h : name.reverse = c :: rest) (hc : ¬ c = '\n') :
    stripUUID name = (stripUUIDRev name.reverse).reverse := by
  unfold stripUUID
  rw [h]
  simp [hc]

/-- The central fact packaged for whole stems: a stem made of a semantic name
(not itself ending in whitespace), a nonempty whitespace run, and a token of
either recognized hex form, is stripped back to the semantic name.  (The
trailing-newline branch of `stripUUID` never fires here, since the stem ends in
a hex digit.) -/
theorem stripUUID_strips (sem ws tok : List Char)
    (hws : ws ≠ []) (hwsall : ws.all pySpace = true)
    (hsem : pySpace (sem.reverse.headD 'x') = false)
    (htok : (tok.length = 32 ∧ tok.all isHexDigit = true) ∨ uuidRev tok.reverse = some []) :
    stripUUID (sem ++ ws ++ tok) = sem := by
  have hrev : (sem ++ ws ++ tok).reverse = tok.reverse ++ (ws.reverse ++ sem.reverse) := by
    simp [List.reverse_append]
  obtain ⟨c, t2, htc, hchex⟩ := tok_reverse_head_hex tok htok
  have hcne : ¬ c = '\n' := by
    intro hEq
    rw [hEq] at hchex
    simp [isHexDigit] at hchex
  have hhead : (sem ++ ws ++ tok).reverse = c :: (t2 ++ (ws.reverse ++ sem.reverse)) := by
    rw [hrev, htc, List.cons_append]
  rw [stripUUID_skip_trailing _ c _ hhead hcne, hrev,
    stripUUIDRev_strips sem ws tok hws hwsall hsem htok, List.reverse_reverse]

/-- C3: for every filename whose stem (as produced by `os.path.splitext`) ends
in a workspace identifier token of either recognized hexadecimal form — bare
32-character, or hyphen-grouped 8-4-4-4-12 — separated from the semantic name
by nonempty whitespace and positioned immediately before the extension,
`clean_filename` returns the semantic name with the token and its separating
whitespace removed, with the file extension unchanged.  (The semantic name is
required not to end in whitespace itself, since the greedy `\s+` of the pattern
consumes the whole separating whitespace run.) -/
theorem C3_clean_filename_strips_token (f sem ws tok ext : List Char)
    (hsplit : splitext f = (sem ++ ws ++ tok, ext))
    (hws : ws ≠ []) (hwsall : ws.all pySpace = true)
    (hsem : pySpace (sem.reverse.headD 'x') = false)
    (htok : (tok.length = 32 ∧ tok.all isHexDigit = true) ∨ uuidRev tok.reverse = some []) :
    clean_filename f = sem ++ ext := by
  simp only [clean_filename, hsplit]
  rw [stripUUID_strips sem ws tok hws hwsall hsem htok]

/-- Witness for C3 at the spec's own example name. -/
theorem C3_witness :
    splitext "My Page a1b2c3d4e5f6a1b2c3d4e5f6a1b2c3d4.md".toList =
      ("My Page".toList ++ " ".toList ++ "a1b2c3d4e5f6a1b2c3d4e5f6a1b2c3d4".toList,
        ".md".toList) ∧
    clean_filename "My Page a1b2c3d4e5f6a1b2c3d4e5f6a1b2c3d4.md".toList =
      "My Page".toList ++ ".md".toList :=
  ⟨by decide,
    C3_clean_filename_strips_token "My Page a1b2c3d4e5f6a1b2c3d4e5f6a1b2c3d4.md".toList
      "My Page".toList " ".toList "a1b2c3d4e5f6a1b2c3d4e5f6a1b2c3d4".toList ".md".toList
      (by decide) (by decide) (by decide) (by decide) (Or.inl (by decide))⟩

theorem decDigit_toNat (d : Nat) (h : d < 10) : (decDigit d).toNat = 48 + d := by
  interval_cases d <;> rfl

theorem map_decDigit_inj (l1 l2 : List Nat) (h1 : ∀ d ∈ l1, d < 10)
    (h2 : ∀ d ∈ l2, d < 10) (h : l1.map decDigit = l2.map decDigit) : l1 = l2 := by
  have h3 := congrArg (List.map Char.toNat) h
  rw [List.map_map, List.map_map] at h3
  have e1 : List.map (Char.toNat ∘ decDigit) l1 = List.map (fun d => 48 + d) l1 :=
    List.map_congr_left (fun d hd => by
      simp only [Function.comp_apply]
      exact decDigit_toNat d (h1 d hd))
  have e2 : List.map (Char.toNat ∘ decDigit) l2 = List.map (fun d => 48 + d) l2 :=
    List.map_congr_left (fun d hd => by
      simp only [Function.comp_apply]
      exact decDigit_toNat d (h2 d hd))
  rw [e1, e2] at h3
  exact List.map_injective_iff.mpr (fun a b hab => by omega) h3

theorem digits_bound (k : Nat) : ∀ d ∈ Nat.digits 10 k, d < 10 :=
  fun _ hd => Nat.digits_lt_base (by norm_num) hd

theorem natToStr_inj (m n : Nat) (h : natToStr m = natToStr n) : m = n := by
  by_cases hm : m = 0 <;> by_cases hn : n = 0
  · rw [hm, hn]
  · exfalso
    simp only [natToStr, hm, hn, if_true, if_false] at h
    have h2 : (Nat.digits 10 n).map decDigit = ['0'] := by
      rw [← List.reverse_inj]
      simpa using h.symm
    have h3 : Nat.digits 10 n = [0] :=
      map_decDigit_inj _ [0] (digits_bound n) (by simp) (by simpa using h2)
    have h4 := Nat.ofDigits_digits 10 n
    rw [h3] at h4
    simp [Nat.ofDigits] at h4
    exact hn h4.symm
  · exfalso
    simp only [natToStr, hm, hn, if_true, if_false] at h
    have h2 : (Nat.digits 10 m).map decDigit = ['0'] := by
      rw [← List.reverse_inj]
      simpa using h
    have h3 : Nat.digits 10 m = [0] :=
      map_decDigit_inj _ [0] (digits_bound m) (by simp) (by simpa using h2)
    have h4 := Nat.ofDigits_digits 10 m
    rw [h3] at h4
    simp [Nat.ofDigits] at h4
    exact hm h4.symm
  · simp only [natToStr, hm, hn, if_false] at h
    rw [List.reverse_inj] at h
    have h3 := map_decDigit_inj _ _ (digits_bound m) (digits_bound n) h
    have h4 := Nat.ofDigits_digits 10 m
    rw [h3, Nat.ofDigits_digits] at h4
    exact h4.symm

theorem suffixed_inj (base ext : List Char) (j k : Nat)
    (h : suffixed base ext j = suffixed base ext k) : j = k := by
  unfold suffixed at h
  have h1 := List.append_cancel_right h
  have h2 := List.append_cancel_left h1
  injection h2 with _ h3
  exact natToStr_inj j k h3

theorem findFreeFrom_spec (base ext : List Char) (occ : List (List Char)) :
    ∀ fuel k, findFreeFrom base ext occ fuel k ∉ occ ∨
      ∀ i < fuel, suffixed base ext (k + i) ∈ occ := by
  intro fuel
  induction fuel with
  | zero => exact fun k => Or.inr (fun i hi => absurd hi (Nat.not_lt_zero i))
  | succ f ih =>
    intro k
    by_cases hmem : suffixed base ext k ∈ occ
    · rcases ih (k + 1) with h | h
      · left
        simpa [findFreeFrom, hmem] using h
      · right
        intro i hi
        cases i with
        | zero => simpa using hmem
        | succ j =>
          have hj : k + (j + 1) = k + 1 + j := by omega
          rw [hj]
          exact h j (by omega)
    · left
      simp [findFreeFrom, hmem]

theorem findFreeFrom_not_mem (base ext : List Char) (occ : List (List Char)) :
    findFreeFrom base ext occ (occ.length + 1) 1 ∉ occ := by
  rcases findFreeFrom_spec base ext occ (occ.length + 1) 1 with h | h
  · exact h
  · exfalso
    have hinj : Set.InjOn (fun i => suffixed base ext (1 + i))
        (Finset.range (occ.length + 1)) := by
      intro a _ b _ hab
      have := suffixed_inj base ext (1 + a) (1 + b) hab
      omega
    have hsub : (Finset.range (occ.length + 1)).image (fun i => suffixed base ext (1 + i)) ⊆
        occ.toFinset := by
      intro x hx
      rw [Finset.mem_image] at hx
      obtain ⟨i, hi, rfl⟩ := hx
      rw [List.mem_toFinset]
      have : 1 + i = 1 + i := rfl
      have hmem := h i (by simpa using hi)
      simpa [Nat.add_comm] using hmem
    have hcard := Finset.card_le_card hsub
    rw [Finset.card_image_of_injOn hinj, Finset.card_range] at hcard
    have hlen := List.toFinset_card_le occ
    omega

theorem resolveCollision_not_mem (c : List Char) (occ : List (List Char)) :
    resolveCollision c occ ∉ occ := by
  by_cases h : c ∈ occ
  · simpa [resolveCollision, h] using findFreeFrom_not_mem (splitext c).1 (splitext c).2 occ
  · simp [resolveCollision, h]

theorem renameStep_nodup (dir : List (List Char)) (o : List Char) (h : dir.Nodup) :
    (renameStep dir o).Nodup := by
  by_cases h1 : o ∈ dir
  · by_cases h2 : clean_filename o = o
    · simpa [renameStep, h1, h2] using h
    · have hfree := resolveCollision_not_mem (clean_filename o) dir
      have herase : (dir.erase o).Nodup := List.Nodup.erase o h
      have hnotin : resolveCollision (clean_filename o) dir ∉ dir.erase o :=
        fun hmem => hfree ((List.erase_sublist o dir).subset hmem)
      simp only [renameStep, h1, h2, if_true, if_false]
      exact List.nodup_cons.mpr ⟨hnotin, herase⟩
  · simpa [renameStep, h1] using h

/-- C4: processing the entries of a directory in a fixed order, the rename pass
resolves every post-stripping collision through the numeric-suffix loop, so the
resulting set of sibling names is pairwise distinct; the result is a pure
function of the input ordering (determinism). -/
theorem C4_rename_pass_distinct (order dir : List (List Char)) (h : dir.Nodup) :
    (rename_files_and_folders order dir).Nodup := by
  induction order generalizing dir with
  | nil => exact h
  | cons o os ih =>
    simp only [rename_files_and_folders, List.foldl_cons]
    exact ih _ (renameStep_nodup dir o h)

/-- Witness for C4: two siblings strip to the same name `Notes.md` while a third
sibling already occupies `Notes_1.md`; the pass yields pairwise-distinct names. -/
theorem C4_witness :
    (["Notes cccccccccccccccccccccccccccccccc.md".toList,
      "Notes dddddddddddddddddddddddddddddddd.md".toList,
      "Notes_1.md".toList] : List (List Char)).Nodup ∧
    (rename_files_and_folders
      ["Notes cccccccccccccccccccccccccccccccc.md".toList,
       "Notes dddddddddddddddddddddddddddddddd.md".toList,
       "Notes_1.md".toList]
      ["Notes cccccccccccccccccccccccccccccccc.md".toList,
       "Notes dddddddddddddddddddddddddddddddd.md".toList,
       "Notes_1.md".toList]).Nodup :=
  ⟨by decide, C4_rename_pass_distinct _ _ (by decide)⟩

theorem replaceGo_no_occurrence (pat rep : List Char) :
    ∀ fuel s, ¬ pat <:+: s → replaceGo pat rep fuel s = s := by
  intro fuel
  induction fuel with
  | zero =>
    intro s _
    cases s <;> rfl
  | succ f ih =>
    intro s h
    cases s with
    | nil => rfl
    | cons c rest =>
      have hp : pat.isPrefixOf (c :: rest) = false := by
        cases hpp : pat.isPrefixOf (c :: rest)
        · rfl
        · exact absurd (List.isPrefixOf_iff_prefix.mp hpp).isInfix h
      have hrest : ¬ pat <:+: rest := fun hr => h (List.infix_cons hr)
      simp [replaceGo, hp, ih rest hrest]

theorem replaceAll_no_occurrence (s pat rep : List Char) (h : ¬ pat <:+: s) :
    replaceAll s pat rep = s :=
  replaceGo_no_occurrence pat rep s.length s h

theorem applyPair_no_occurrence (c : List Char) (p : List Char × List Char)
    (h1 : ¬ encodeSpaces p.1 <:+: c) (h2 : ¬ p.1 <:+: c) : applyPair c p = c := by
  unfold applyPair
  rw [replaceAll_no_occurrence _ _ _ h1, replaceAll_no_occurrence _ _ _ h2]

theorem fix_markdown_links_fixed (c : List Char) (m : List (List Char × List Char))
    (h : ∀ p ∈ m, ¬ encodeSpaces p.1 <:+: c ∧ ¬ p.1 <:+: c) :
    fix_markdown_links c m = c := by
  induction m with
  | nil => rfl
  | cons p ps ih =>
    have hp := h p (by simp)
    simp only [fix_markdown_links, List.foldl_cons] at ih ⊢
    rw [applyPair_no_occurrence c p hp.1 hp.2]
    exact ih fun q hq => h q (by simp [hq])

/-- C5 counterexample: a realistic rename map (both pairs are produced by
`clean_filename` on identifier-suffixed names) and a document content on which
running `fix_markdown_links` a second time changes the content again, because
the first run's replacement creates a fresh occurrence of the other pair's
original name.  So reference rewriting is not idempotent. -/
theorem C5_counterexample :
    clean_filename "x dddddddddddddddddddddddddddddddb.md".toList = "x.md".toList ∧
    clean_filename "b cccccccccccccccccccccccccccccccc.md".toList = "b.md".toList ∧
    fix_markdown_links
        (fix_markdown_links
          "x dddddddddddddddddddddddddddddddb cccccccccccccccccccccccccccccccc.md".toList
          [("x dddddddddddddddddddddddddddddddb.md".toList, "x.md".toList),
           ("b cccccccccccccccccccccccccccccccc.md".toList, "b.md".toList)])
        [("x dddddddddddddddddddddddddddddddb.md".toList, "x.md".toList),
         ("b cccccccccccccccccccccccccccccccc.md".toList, "b.md".toList)] ≠
      fix_markdown_links
        "x dddddddddddddddddddddddddddddddb cccccccccccccccccccccccccccccccc.md".toList
        [("x dddddddddddddddddddddddddddddddb.md".toList, "x.md".toList),
         ("b cccccccccccccccccccccccccccccccc.md".toList, "b.md".toList)] := by
  refine ⟨by decide, by decide, by decide⟩

/-- C5 amended: `fix_markdown_links` replaces, for each recorded pair in order,
first the space-percent-encoded form and then the literal form of the original
leaf name with the corresponding form of the final name; a second application
leaves the content unchanged provided no recorded original name — in either
form — still occurs in the once-rewritten content.  (Without that proviso a
second application can change the content further, see the counterexample.) -/
theorem C5_rewrite_idempotent_of_no_residual (c : List Char)
    (m : List (List Char × List Char))
    (h : ∀ p ∈ m, ¬ encodeSpaces p.1 <:+: fix_markdown_links c m ∧
      ¬ p.1 <:+: fix_markdown_links c m) :
    fix_markdown_links (fix_markdown_links c m) m = fix_markdown_links c m :=
  fix_markdown_links_fixed _ m h

/-- Witness for the amended C5 on a content where rewriting leaves no residual
occurrence of the original name. -/
theorem C5_witness :
    (∀ p ∈ [("b cccccccccccccccccccccccccccccccc.md".toList, "b.md".toList)],
      ¬ encodeSpaces p.1 <:+:
          fix_markdown_links "see b cccccccccccccccccccccccccccccccc.md here".toList
            [("b cccccccccccccccccccccccccccccccc.md".toList, "b.md".toList)] ∧
      ¬ p.1 <:+:
          fix_markdown_links "see b cccccccccccccccccccccccccccccccc.md here".toList
            [("b cccccccccccccccccccccccccccccccc.md".toList, "b.md".toList)]) ∧
    fix_markdown_links
        (fix_markdown_links "see b cccccccccccccccccccccccccccccccc.md here".toList
          [("b cccccccccccccccccccccccccccccccc.md".toList, "b.md".toList)])
        [("b cccccccccccccccccccccccccccccccc.md".toList, "b.md".toList)] =
      fix_markdown_links "see b cccccccccccccccccccccccccccccccc.md here".toList
        [("b cccccccccccccccccccccccccccccccc.md".toList, "b.md".toList)] :=
  ⟨by decide, C5_rewrite_idempotent_of_no_residual _ _ (by decide)⟩

theorem pyStrLt_iff_lex (a b : List Char) :
    pyStrLt a b = true ↔ List.Lex (fun x y : Char => x < y) a b := by
  induction a generalizing b with
  | nil =>
    cases b with
    | nil =>
      constructor
      · intro h
        simp [pyStrLt] at h
      · intro h
        cases h
    | cons y ys =>
      constructor
      · intro _
        exact List.Lex.nil
      · intro _
        rfl
  | cons x xs ih =>
    cases b with
    | nil =>
      constructor
      · intro h
        simp [pyStrLt] at h
      · intro h
        cases h
    | cons y ys =>
      by_cases hlt : x < y
      · constructor
        · intro _
          exact List.Lex.rel hlt
        · intro _
          simp [pyStrLt, hlt]
      · by_cases hgt : y < x
        · constructor
          · intro h
            simp [pyStrLt, hlt, hgt] at h
          · intro h
            cases h with
            | cons h2 => exact absurd hgt (lt_irrefl x)
            | rel h2 => exact absurd h2 hlt
        · have hxy : x = y := le_antisymm (not_lt.mp hgt) (not_lt.mp hlt)
          subst hxy
          constructor
          · intro h
            have h2 : pyStrLt xs ys = true := by
              simpa [pyStrLt, lt_irrefl] using h
            exact List.Lex.cons ((ih ys).mp h2)
          · intro h
            have h2 : pyStrLt xs ys = true := by
              cases h with
              | cons h2 => exact (ih ys).mpr h2
              | rel h2 => exact absurd h2 (lt_irrefl x)
            simp [pyStrLt, lt_irrefl, h2]

theorem pyStrLt_self (v : List Char) : pyStrLt v v = false := by
  induction v with
  | nil => rfl
  | cons c cs ih => simp [pyStrLt, lt_irrefl, ih]

/-- C6: the change test `hasChanged v w` (the `last_edited_time >
last_sync_time` comparison of `run_sync`) is true exactly when `v` is lexically
greater than `w` — i.e. when `w` precedes `v` in the lexicographic order on
code points — and in particular `hasChanged v v` is false.  The test is a pure
function of its two arguments (side-effect-free by construction). -/
theorem C6_hasChanged_lexical (v w : List Char) :
    (hasChanged v w = true ↔ List.Lex (fun x y : Char => x < y) w v) ∧
    hasChanged v v = false :=
  ⟨pyStrLt_iff_lex w v, pyStrLt_self v⟩

theorem pollFrom_upto (env : Nat → PollReply) :
    ∀ t i fuel, (∀ j < t, isTransient (env (i + j)) = true) →
      pollFrom env i (fuel + t) =
        ((pollFrom env (i + t) fuel).1, (pollFrom env (i + t) fuel).2 + t) := by
  intro t
  induction t with
  | zero =>
    intro i fuel _
    simp
  | succ s ih =>
    intro i fuel h
    have h0 : isTransient (env i) = true := by simpa using h 0 (by omega)
    have hshift : ∀ j < s, isTransient (env (i + 1 + j)) = true := by
      intro j hj
      have := h (j + 1) (by omega)
      rw [show i + 1 + j = i + (j + 1) by omega]
      exact this
    have hrec := ih (i + 1) fuel hshift
    have hidx : i + 1 + s = i + (s + 1) := by omega
    rw [hidx] at hrec
    have hfuel : fuel + (s + 1) = (fuel + s) + 1 := by omega
    rw [hfuel]
    cases henv : env i with
    | netError => simp [pollFrom, henv, hrec]; omega
    | noResults => simp [pollFrom, henv, hrec]; omega
    | inProgress => simp [pollFrom, henv, hrec]; omega
    | completeWith u => simp [isTransient, henv] at h0
    | failedWith e => simp [isTransient, henv] at h0

theorem pollFrom_all_transient (env : Nat → PollReply) :
    ∀ fuel i, (∀ j < fuel, isTransient (env (i + j)) = true) →
      pollFrom env i fuel = (none, fuel) := by
  intro fuel
  induction fuel with
  | zero =>
    intro i _
    rfl
  | succ f ih =>
    intro i h
    have h0 : isTransient (env i) = true := by simpa using h 0 (by omega)
    have hrec := ih (i + 1) (fun j hj => by
      have := h (j + 1) (by omega)
      rw [show i + 1 + j = i + (j + 1) by omega]
      exact this)
    cases henv : env i with
    | netError => simp [pollFrom, henv, hrec]
    | noResults => simp [pollFrom, henv, hrec]
    | inProgress => simp [pollFrom, henv, hrec]
    | completeWith u => simp [isTransient, henv] at h0
    | failedWith e => simp [isTransient, henv] at h0

/-- C1: if attempts `1 .. k-1` observe non-terminal replies and attempt `k`
observes a `complete` status carrying a non-empty export URL, the poll loop
returns that URL at attempt `k`, performing exactly `k` poll attempts — the
remaining `maxAttempts - k` attempts are never made. -/
theorem C1_poll_complete_short_circuits (env : Nat → PollReply) (k maxAttempts : Nat)
    (url : List Char) (hk1 : 1 ≤ k) (hk2 : k ≤ maxAttempts)
    (hpre : ∀ j < k - 1, isTransient (env j) = true)
    (hcomp : env (k - 1) = PollReply.completeWith (some url)) (hurl : url ≠ []) :
    poll_export_status env maxAttempts = (some url, k) := by
  obtain ⟨m, hm1, hm2⟩ : ∃ m, 1 ≤ m ∧ maxAttempts = m + (k - 1) :=
    ⟨maxAttempts - (k - 1), by omega, by omega⟩
  obtain ⟨m2, rfl⟩ : ∃ m2, m = m2 + 1 := ⟨m - 1, by omega⟩
  unfold poll_export_status
  rw [hm2, pollFrom_upto env (k - 1) 0 (m2 + 1) (by simpa using hpre)]
  have hz : (0 : Nat) + (k - 1) = k - 1 := by omega
  rw [hz]
  simp [pollFrom, hcomp, hurl]
  omega

/-- Witness for C1: `Running` on attempts 1-3, `Complete` with a URL on
attempt 4: the URL is returned after exactly 4 of the 60 attempts. -/
theorem C1_witness :
    poll_export_status
      (fun j => if j < 3 then PollReply.inProgress else PollReply.completeWith (some ['u']))
      60 = (some ['u'], 4) :=
  C1_poll_complete_short_circuits
    (fun j => if j < 3 then PollReply.inProgress else PollReply.completeWith (some ['u']))
    4 60 ['u'] (by decide) (by decide) (by decide) (by decide) (by decide)

/-- C7 counterexample: the three failure modes — `complete` without a URL, an
explicit `failure` reply, and exhaustion of the attempt budget — all make
`_poll_export_status` return the same value `None`; the caller cannot
distinguish them.  (They are told apart only in log output.) -/
theorem C7_counterexample :
    (poll_export_status (fun _ => PollReply.completeWith none) 60).1 = none ∧
    (poll_export_status (fun _ => PollReply.failedWith "boom".toList) 60).1 = none ∧
    (poll_export_status (fun _ => PollReply.inProgress) 60).1 = none := by
  refine ⟨by decide, by decide, by decide⟩

/-- C7 amended: the three failure outcomes are immediately terminal —
`complete` with a missing or empty URL and an explicit `failure` reply each end
polling at that very attempt, and exhausting the budget ends it after exactly
`maxAttempts` attempts — but all three return the same `None`; they are not
distinguishable by the caller from the returned value. -/
theorem C7_failures_terminal_indistinct (env : Nat → PollReply) (k maxAttempts : Nat)
    (e : List Char) (hk1 : 1 ≤ k) (hk2 : k ≤ maxAttempts)
    (hpre : ∀ j < k - 1, isTransient (env j) = true) :
    (env (k - 1) = PollReply.completeWith none →
      poll_export_status env maxAttempts = (none, k)) ∧
    (env (k - 1) = PollReply.completeWith (some []) →
      poll_export_status env maxAttempts = (none, k)) ∧
    (env (k - 1) = PollReply.failedWith e →
      poll_export_status env maxAttempts = (none, k)) ∧
    ((∀ j < maxAttempts, isTransient (env j) = true) →
      poll_export_status env maxAttempts = (none, maxAttempts)) := by
  obtain ⟨m, hm1, hm2⟩ : ∃ m, 1 ≤ m ∧ maxAttempts = m + (k - 1) :=
    ⟨maxAttempts - (k - 1), by omega, by omega⟩
  obtain ⟨m2, rfl⟩ : ∃ m2, m = m2 + 1 := ⟨m - 1, by omega⟩
  have hstep : poll_export_status env maxAttempts =
      ((pollFrom env (k - 1) (m2 + 1)).1, (pollFrom env (k - 1) (m2 + 1)).2 + (k - 1)) := by
    unfold poll_export_status
    rw [hm2, pollFrom_upto env (k - 1) 0 (m2 + 1) (by simpa using hpre)]
    rw [show (0 : Nat) + (k - 1) = k - 1 by omega]
  refine ⟨fun hc => ?_, fun hc => ?_, fun hc => ?_, fun hall => ?_⟩
  · rw [hstep]
    simp [pollFrom, hc]
    omega
  · rw [hstep]
    simp [pollFrom, hc]
    omega
  · rw [hstep]
    simp [pollFrom, hc]
    omega
  · unfold poll_export_status
    exact pollFrom_all_transient env maxAttempts 0 (by simpa using hall)

/-- Witness for the amended C7: a `failure` reply on attempt 2 after one
in-progress attempt returns `None` after exactly 2 attempts. -/
theorem C7_witness :
    poll_export_status
      (fun j => if j < 1 then PollReply.inProgress else PollReply.failedWith "gone".toList)
      60 = (none, 2) :=
  (C7_failures_terminal_indistinct
    (fun j => if j < 1 then PollReply.inProgress else PollReply.failedWith "gone".toList)
    2 60 "gone".toList (by decide) (by decide) (by decide)).2.2.1 (by decide)

/-- C8: a transport error on a poll attempt never terminates the loop by
itself, but it does consume one unit of the attempt budget: a run observing
nothing but transport errors performs exactly `maxAttempts` attempts and then
ends in the timeout outcome (returning `None`). -/
theorem C8_transient_errors_consume_budget (env : Nat → PollReply) (maxAttempts : Nat)
    (h : ∀ j < maxAttempts, env j = PollReply.netError) :
    poll_export_status env maxAttempts = (none, maxAttempts) := by
  unfold poll_export_status
  apply pollFrom_all_transient
  intro j hj
  have := h j (by simpa using hj)
  simp [this, isTransient]

/-- Witness for C8: five consecutive transport errors exhaust a budget of 5. -/
theorem C8_witness :
    poll_export_status (fun _ => PollReply.netError) 5 = (none, 5) :=
  C8_transient_errors_consume_budget (fun _ => PollReply.netError) 5 (fun _ _ => rfl)

/-- C2 counterexample: a cycle whose extraction step fails (`unzipOk = false`)
still runs to a successful push, and the persisted watermark is updated — the
`zipfile` error is caught and logged inside `run_sync` and the cycle continues,
so a failure at the extraction stage does not leave the watermark unchanged. -/
theorem C2_counterexample :
    run_sync
        ⟨some "2024-06-01T00:00:00.000Z".toList, true, false, true,
          "M notes/a.md".toList, true, true⟩
        (some "2024-01-01T00:00:00.000Z".toList) =
      (some "2024-06-01T00:00:00.000Z".toList, SyncOutcome.pushed) ∧
    (⟨some "2024-06-01T00:00:00.000Z".toList, true, false, true,
        "M notes/a.md".toList, true, true⟩ : SyncEnv).unzipOk = false ∧
    some "2024-06-01T00:00:00.000Z".toList ≠
      some "2024-01-01T00:00:00.000Z".toList := by
  refine ⟨by decide, rfl, by decide⟩

/-- C2 amended: a cycle that fails at the change query, the export invocation,
normalization, commit, or push leaves the persisted watermark unchanged, and a
cycle that ends in a successful push — or in the nothing-to-commit success
path — updates it to exactly the remote version observed at the start of the
cycle.  (An extraction failure, by contrast, is caught and the cycle continues,
so it can still end in an update: see the counterexample.) -/
theorem C2_watermark_update (env : SyncEnv) (fs : Option (List Char)) :
    ((run_sync env fs).2 ≠ SyncOutcome.pushed →
      (run_sync env fs).2 ≠ SyncOutcome.noContentChanges →
      (run_sync env fs).1 = fs) ∧
    (∀ t, env.pageResult = some t →
      ((run_sync env fs).2 = SyncOutcome.pushed ∨
        (run_sync env fs).2 = SyncOutcome.noContentChanges) →
      (run_sync env fs).1 = some t) := by
  obtain ⟨pr, eo, uo, po, gs, co, puo⟩ := env
  cases pr with
  | none => simp [run_sync]
  | some t0 =>
    by_cases hch : hasChanged t0 (get_last_sync fs) = true <;>
      by_cases hgs : gs = [] <;>
        cases eo <;> cases po <;> cases co <;> cases puo <;>
          simp [run_sync, hch, hgs, save_sync_time]

/-- Witness for the amended C2: a push failure leaves the stored watermark as
it was. -/
theorem C2_witness :
    (run_sync
        ⟨some "2024-06-01T00:00:00.000Z".toList, true, true, true,
          "M notes/a.md".toList, true, false⟩
        (some "2024-01-01T00:00:00.000Z".toList)).1 =
      some "2024-01-01T00:00:00.000Z".toList :=
  (C2_watermark_update _ _).1 (by decide) (by decide)

/-- C9 counterexample: `save_sync_time` persists by truncating the watermark
file in place and then writing; among its observable intermediate states is the
truncated-empty file — there is no temporary path and no atomic rename — and a
crash in that state loses the previously stored valid watermark: a later read
returns the fixed default, which lies strictly below the previous value. -/
theorem C9_counterexample :
    some [] ∈ save_sync_time_states "2024-06-01T00:00:00.000Z".toList
        (some "2024-01-01T00:00:00.000Z".toList) ∧
    get_last_sync (some []) = defaultWatermark ∧
    hasChanged "2024-01-01T00:00:00.000Z".toList defaultWatermark = true := by
  refine ⟨by decide, by decide, by decide⟩

theorem get_last_sync_set (t : List Char) (hstrip : pyStrip t = t) (ht : t ≠ []) :
    get_last_sync (some t) = t := by
  simp [get_last_sync, hstrip, ht]

/-- C9 amended: in crash-free operation the persisted watermark never
regresses — a cycle either leaves the watermark-file state unchanged or
replaces it with the observed remote version, which the cycle guard makes
lexically greater than the watermark it read (stated for version strings
without surrounding whitespace, as ISO-8601 timestamps are); but persistence is
a direct in-place overwrite, not a write-to-temporary-path-then-atomic-rename,
so a crash mid-write can corrupt the stored value (see the counterexample). -/
theorem C9_no_regression_crash_free (env : SyncEnv) (fs : Option (List Char))
    (t : List Char) (hp : env.pageResult = some t) (hstrip : pyStrip t = t)
    (ht : t ≠ []) :
    get_last_sync (run_sync env fs).1 = get_last_sync fs ∨
    hasChanged (get_last_sync (run_sync env fs).1) (get_last_sync fs) = true := by
  obtain ⟨pr, eo, uo, po, gs, co, puo⟩ := env
  simp only at hp
  subst hp
  by_cases hch : hasChanged t (get_last_sync fs) = true
  · by_cases hgs : gs = [] <;>
      cases eo <;> cases po <;> cases co <;> cases puo <;>
        simp only [run_sync, hch, hgs, save_sync_time, if_true, if_false] <;>
          first
            | exact Or.inl rfl
            | (right
               rw [get_last_sync_set t hstrip ht]
               exact hch)
  · left
    simp [run_sync, hch]

/-- Witness for the amended C9 at a successful cycle: the stored watermark
strictly increases. -/
theorem C9_witness :
    get_last_sync (run_sync
        ⟨some "2024-06-01T00:00:00.000Z".toList, true, true, true,
          "M notes/a.md".toList, true, true⟩
        (some "2024-01-01T00:00:00.000Z".toList)).1 =
      get_last_sync (some "2024-01-01T00:00:00.000Z".toList) ∨
    hasChanged
      (get_last_sync (run_sync
        ⟨some "2024-06-01T00:00:00.000Z".toList, true, true, true,
          "M notes/a.md".toList, true, true⟩
        (some "2024-01-01T00:00:00.000Z".toList)).1)
      (get_last_sync (some "2024-01-01T00:00:00.000Z".toList)) = true :=
  C9_no_regression_crash_free _ _ "2024-06-01T00:00:00.000Z".toList rfl
    (by decide) (by decide)

/-- C10: reading the watermark is total over watermark-file states: a missing
file yields the fixed default `2000-01-01T00:00:00.000Z`, as does a file whose
content is empty or whitespace-only; any other content is returned stripped of
surrounding whitespace; and the default is below every later version string, so
the first cycle after a fresh install detects a change for any such version. -/
theorem C10_get_last_sync_total :
    get_last_sync none = defaultWatermark ∧
    (∀ c : List Char, c.all pySpace = true → get_last_sync (some c) = defaultWatermark) ∧
    (∀ c : List Char, pyStrip c ≠ [] → get_last_sync (some c) = pyStrip c) ∧
    (∀ v : List Char, pyStrLt defaultWatermark v = true →
      hasChanged v (get_last_sync none) = true) := by
  refine ⟨rfl, ?_, ?_, ?_⟩
  · intro c hc
    have hd : c.dropWhile pySpace = [] :=
      List.dropWhile_eq_nil_iff.mpr (fun x hx => List.all_eq_true.mp hc x hx)
    have h1 : pyStrip c = [] := by
      simp [pyStrip, hd]
    simp [get_last_sync, h1]
  · intro c hc
    simp [get_last_sync, hc]
  · intro v hv
    simpa [get_last_sync, hasChanged] using hv

/-- Witness for C10: a whitespace-only file (including a non-ASCII no-break
space, which Python's `strip` also removes), a padded stored value, and the
spec's end-to-end first-cycle scenario. -/
theorem C10_witness :
    get_last_sync (some " \u00A0\t ".toList) = defaultWatermark ∧
    get_last_sync (some " 2024-01-01T10:00:00.000Z ".toList) =
      pyStrip " 2024-01-01T10:00:00.000Z ".toList ∧
    hasChanged "2024-01-01T10:00:00.000Z".toList (get_last_sync none) = true :=
  ⟨C10_get_last_sync_total.2.1 _ (by decide),
    C10_get_last_sync_total.2.2.1 _ (by decide),
    C10_get_last_sync_total.2.2.2 _ (by decide)⟩

end NotionBackup
